import Mathlib

/-!
Verification of the linkedin-finder pipeline (src/linkedin-finder.py).

Python strings are modelled as `List Char`; the program's functions are
translated one-to-one below.  File output is modelled as the produced
character content; the orchestrator is modelled as a pure function from the
input lines and configuration to the produced artifacts and printed messages.
-/

namespace LinkedinFinder

/-- Whitespace stripped by Python str.strip (ASCII whitespace subset). -/
def pyIsSpace (c : Char) : Bool :=
  c = ' ' || c = '\t' || c = '\n' || c = '\r' || c = Char.ofNat 11 || c = Char.ofNat 12

/-- Python str.strip: remove whitespace from both ends. -/
def pyStrip (l : List Char) : List Char :=
  ((l.dropWhile pyIsSpace).reverse.dropWhile pyIsSpace).reverse

/-- Characters allowed by the regex class [A-Za-z0-9._+-] (the local part). -/
def localChar (c : Char) : Bool :=
  c.isAlpha || c.isDigit || c = '.' || c = '_' || c = '+' || c = '-'

/-- Characters allowed by the regex class [A-Za-z0-9.-] (the domain body). -/
def domainChar (c : Char) : Bool :=
  c.isAlpha || c.isDigit || c = '.' || c = '-'

/-- Membership in the language of the regex fragment
[A-Za-z0-9.-]+[.][A-Za-z]{2,}$ : some split position i gives a non-empty
domain body, then a dot, then a final label of at least 2 letters. -/
def emailDomainOk (d : List Char) : Bool :=
  (List.range d.length).any fun i =>
    i != 0 && (d.take i).all domainChar &&
      (match d.drop i with
       | '.' :: t => t.all Char.isAlpha && decide (2 ≤ t.length)
       | _ => false)

/-- Membership in the language of EMAIL_RE,
^[A-Za-z0-9._+-]+@[A-Za-z0-9.-]+[.][A-Za-z]{2,}$ .  Since no character class
of the regex contains the at-sign, a word is in the language exactly when the
part before its first at-sign is a non-empty local part and the rest is an
at-sign followed by a matching domain. -/
def emailMatch (s : List Char) : Bool :=
  match s.dropWhile (· != '@') with
  | '@' :: d =>
      !(s.takeWhile (· != '@')).isEmpty &&
        (s.takeWhile (· != '@')).all localChar && emailDomainOk d
  | _ => false

/-- The loop body of iter_emails: `seen` collects the emails yielded so far
(the Python set, modelled as the list of its elements). -/
def iterEmailsGo : List (List Char) → List (List Char) → List (List Char)
  | [], _ => []
  | raw :: rest, seen =>
    let line := pyStrip raw
    if line.isEmpty || line.contains ' ' || !line.contains '@' then
      iterEmailsGo rest seen
    else if emailMatch line && !seen.contains line then
      line :: iterEmailsGo rest (line :: seen)
    else
      iterEmailsGo rest seen

/-- iter_emails: validate, deduplicate, preserve first-seen order. -/
def iterEmails (lines : List (List Char)) : List (List Char) :=
  iterEmailsGo lines []

/-- Python str.split with a one-character separator: "a.b".split "." = [a, b],
"".split "." = [""], ".".split "." = ["", ""]. -/
def pySplit (sep : Char) : List Char → List (List Char)
  | [] => [[]]
  | c :: rest =>
    if c = sep then [] :: pySplit sep rest
    else
      match pySplit sep rest with
      | r :: rs => (c :: r) :: rs
      | [] => [[c]]

/-- The loop of extract_surname_hint over the candidate separators. -/
def surnameGo : List Char → List Char → List Char
  | [], localPart => localPart
  | sep :: rest, localPart =>
    if sep ∈ localPart then
      if 2 ≤ ((pySplit sep localPart).filter (· ≠ [])).length then
        ((pySplit sep localPart).filter (· ≠ [])).getLastD []
      else surnameGo rest localPart
    else surnameGo rest localPart

/-- extract_surname_hint: try dot, hyphen, underscore splits; take the last
non-empty chunk when a split gives at least two; otherwise the local part itself. -/
def extractSurnameHint (localPart : List Char) : List Char :=
  surnameGo ['.', '-', '_'] localPart

/-- The keyword renderer inside build_query: quote a keyword only when it
contains a space. -/
def quoteKw (kw : List Char) : List Char :=
  if ' ' ∈ kw then '"' :: (kw ++ ['"']) else kw

/-- build_query: site:linkedin.com/in "surname" (kw1 OR ... OR kwN). -/
def buildQuery (surname : List Char) (orgKws : List (List Char)) : List Char :=
  let orgBlock := List.intercalate " OR ".toList (orgKws.map quoteKw)
  "site:linkedin.com/in \"".toList ++ surname ++ "\" (".toList ++ orgBlock ++ [')']

/-- Characters urllib.parse.quote never encodes (letters, digits, _.-~). -/
def safeChar (c : Char) : Bool :=
  c.isAlpha || c.isDigit || c = '_' || c = '.' || c = '-' || c = '~'

/-- UTF-8 encoding of one character, as byte values. -/
def utf8Bytes (c : Char) : List Nat :=
  let n := c.toNat
  if n < 0x80 then [n]
  else if n < 0x800 then [0xC0 + n / 0x40, 0x80 + n % 0x40]
  else if n < 0x10000 then
    [0xE0 + n / 0x1000, 0x80 + (n / 0x40) % 0x40, 0x80 + n % 0x40]
  else
    [0xF0 + n / 0x40000, 0x80 + (n / 0x1000) % 0x40,
     0x80 + (n / 0x40) % 0x40, 0x80 + n % 0x40]

/-- Uppercase hexadecimal digit, as produced by urllib percent-encoding. -/
def hexDigit (n : Nat) : Char :=
  Char.ofNat (if n < 10 then 48 + n else 55 + n)

/-- Percent-encoding of one byte: %XX with uppercase hex. -/
def pctByte (b : Nat) : List Char :=
  ['%', hexDigit (b / 16), hexDigit (b % 16)]

/-- quote_plus on one character: space becomes a plus sign, safe characters
pass through, everything else is the percent-encoding of its UTF-8 bytes. -/
def quotePlusChar (c : Char) : List Char :=
  if c = ' ' then ['+']
  else if safeChar c then [c]
  else ((utf8Bytes c).map pctByte).flatten

/-- urllib.parse.quote_plus on a whole string. -/
def quotePlus (q : List Char) : List Char :=
  (q.map quotePlusChar).flatten

/-- The fixed search links of build_search_links. -/
structure SearchLinks where
  google : List Char
  bing : List Char
  yandex : List Char
deriving DecidableEq, Repr

def googleBase : List Char := "https://www.google.com/search?q=".toList
def bingBase : List Char := "https://www.bing.com/search?q=".toList
def yandexBase : List Char := "https://yandex.com/search/?text=".toList

/-- build_search_links: the three engine URLs for one query. -/
def buildSearchLinks (query : List Char) : SearchLinks :=
  { google := googleBase ++ quotePlus query
    bing := bingBase ++ quotePlus query
    yandex := yandexBase ++ quotePlus query }

/-- Value of a hexadecimal digit character (decoding side). -/
def hexVal (c : Char) : Option Nat :=
  if c.isDigit then some (c.toNat - 48)
  else if 65 ≤ c.toNat ∧ c.toNat ≤ 70 then some (c.toNat - 55)
  else if 97 ≤ c.toNat ∧ c.toNat ≤ 102 then some (c.toNat - 87)
  else none

/-- Decoding side of quote_plus, byte layer: a plus sign is the space byte,
%XX is the byte XX, any other ASCII character is its own byte. -/
def pctBytes : List Char → Option (List Nat)
  | [] => some []
  | c :: rest =>
    if c = '%' then
      match rest with
      | h :: l :: rest' =>
        match hexVal h, hexVal l, pctBytes rest' with
        | some hv, some lv, some bs => some ((16 * hv + lv) :: bs)
        | _, _, _ => none
      | _ => none
    else if c = '+' then (pctBytes rest).map (32 :: ·)
    else if c.toNat < 128 then (pctBytes rest).map (c.toNat :: ·)
    else none

/-- Decode one UTF-8 scalar from the front of a byte sequence: the decoded
character and the remaining bytes (decoding side of quote_plus). -/
def utf8Step : List Nat → Option (Char × List Nat)
  | [] => none
  | b :: rest =>
    if b < 0x80 then some (Char.ofNat b, rest)
    else if b < 0xC0 then none
    else if b < 0xE0 then
      if 1 ≤ rest.length ∧ (0x80 ≤ rest.headD 0 ∧ rest.headD 0 < 0xC0) ∧
          0x80 ≤ (b - 0xC0) * 0x40 + (rest.headD 0 - 0x80) then
        some (Char.ofNat ((b - 0xC0) * 0x40 + (rest.headD 0 - 0x80)), rest.drop 1)
      else none
    else if b < 0xF0 then
      if 2 ≤ rest.length ∧ (0x80 ≤ rest.headD 0 ∧ rest.headD 0 < 0xC0) ∧
          (0x80 ≤ (rest.drop 1).headD 0 ∧ (rest.drop 1).headD 0 < 0xC0) ∧
          0x800 ≤ (b - 0xE0) * 0x1000 + (rest.headD 0 - 0x80) * 0x40 +
            ((rest.drop 1).headD 0 - 0x80) then
        some (Char.ofNat ((b - 0xE0) * 0x1000 + (rest.headD 0 - 0x80) * 0x40 +
          ((rest.drop 1).headD 0 - 0x80)), rest.drop 2)
      else none
    else if b < 0xF8 then
      if 3 ≤ rest.length ∧ (0x80 ≤ rest.headD 0 ∧ rest.headD 0 < 0xC0) ∧
          (0x80 ≤ (rest.drop 1).headD 0 ∧ (rest.drop 1).headD 0 < 0xC0) ∧
          (0x80 ≤ (rest.drop 2).headD 0 ∧ (rest.drop 2).headD 0 < 0xC0) ∧
          0x10000 ≤ (b - 0xF0) * 0x40000 + (rest.headD 0 - 0x80) * 0x1000 +
            ((rest.drop 1).headD 0 - 0x80) * 0x40 + ((rest.drop 2).headD 0 - 0x80) then
        some (Char.ofNat ((b - 0xF0) * 0x40000 + (rest.headD 0 - 0x80) * 0x1000 +
          ((rest.drop 1).headD 0 - 0x80) * 0x40 + ((rest.drop 2).headD 0 - 0x80)),
          rest.drop 3)
      else none
    else none

/-- UTF-8 decoding of a byte sequence: repeatedly decode one scalar
(decoding side of quote_plus). -/
def utf8Decode : List Nat → Option (List Char)
  | [] => some []
  | b :: rest =>
    match hstep : utf8Step (b :: rest) with
    | some (c, r) => (utf8Decode r).map (c :: ·)
    | none => none
termination_by l => l.length
decreasing_by
  simp only [List.length_cons]
  rw [utf8Step] at hstep
  repeat' split at hstep
  all_goals first
    | exact Option.noConfusion hstep
    | (simp only [Option.some.injEq, Prod.mk.injEq] at hstep
       rw [← hstep.2]
       first
         | omega
         | (simp only [List.length_drop]; omega))

/-- Full decoding side of quote_plus: percent layer then UTF-8 layer. -/
def unquotePlus (s : List Char) : Option (List Char) :=
  (pctBytes s).bind utf8Decode

/-- One output row, the fixed-shape record of the pipeline. -/
structure Row where
  email : List Char
  surname_hint : List Char
  google : List Char
  bing : List Char
  yandex : List Char
deriving DecidableEq, Repr

/-- The row built by the main loop for one accepted email, for a given
keyword list: local part before the first at-sign, surname hint, query,
links. -/
def mkRow (orgKws : List (List Char)) (e : List Char) : Row :=
  let localPart := e.takeWhile (· != '@')
  let surname := extractSurnameHint localPart
  let query := buildQuery surname orgKws
  let links := buildSearchLinks query
  { email := e, surname_hint := surname
    google := links.google, bing := links.bing, yandex := links.yandex }

/-- All rows produced by the pipeline for the given input lines. -/
def pipelineRows (lines : List (List Char)) (orgKws : List (List Char)) : List Row :=
  (iterEmails lines).map (mkRow orgKws)

/-- CSV field escaping of csv.DictWriter: a field is quoted (with inner
quotes doubled) exactly when it contains the delimiter, the quote character
or a CR/LF. -/
def csvField (f : List Char) : List Char :=
  if ',' ∈ f ∨ '"' ∈ f ∨ '\n' ∈ f ∨ '\r' ∈ f then
    '"' :: ((f.map fun c => if c = '"' then ['"', '"'] else [c]).flatten ++ ['"'])
  else f

/-- One CSV record: comma-joined fields terminated by CRLF
(the csv module default line terminator). -/
def csvLine (r : Row) : List Char :=
  List.intercalate [',']
    [csvField r.email, csvField r.surname_hint, csvField r.google,
     csvField r.bing, csvField r.yandex] ++ ['\r', '\n']

/-- The CSV header record written by writeheader. -/
def csvHeader : List Char :=
  "email,surname_hint,Google,Bing,Yandex".toList ++ ['\r', '\n']

/-- The placeholder blank row write_csv substitutes for an empty row list. -/
def blankRow : Row :=
  { email := [], surname_hint := [], google := [], bing := [], yandex := [] }

/-- write_csv: the full character content written to the CSV file. -/
def writeCsv (rows : List Row) : List Char :=
  let rows' := if rows.isEmpty then [blankRow] else rows
  csvHeader ++ (rows'.map csvLine).flatten

/-- Number of data records in produced CSV content: LF-terminated records
after the header (no field produced by this pipeline contains an LF). -/
def dataRowCount (content : List Char) : Nat :=
  content.count '\n' - 1

/-- try_write_xlsx: with openpyxl available the sheet content (header row
then one cell row per record) is produced, otherwise the attempt reports
failure (models the caught ImportError: no exception escapes). -/
def tryWriteXlsx (openpyxlAvailable : Bool) (rows : List Row) :
    Option (List (List (List Char))) :=
  if openpyxlAvailable then
    some (["email".toList, "surname_hint".toList, "Google".toList,
           "Bing".toList, "Yandex".toList] ::
      rows.map fun r => [r.email, r.surname_hint, r.google, r.bing, r.yandex])
  else none

/-- DEFAULT_ORG_KEYWORDS. -/
def DEFAULT_ORG_KEYWORDS : List (List Char) :=
  ["sk.kz".toList, "Samruk-Kazyna".toList, "Самрук-Казына".toList]

/-- The keyword list main derives from the --org option: absent or empty
override keeps the defaults; otherwise split on semicolons, strip each
entry, drop empty entries, and fall back to the defaults when nothing
remains. -/
def orgKeywords (org : Option (List Char)) : List (List Char) :=
  match org with
  | none => DEFAULT_ORG_KEYWORDS
  | some s =>
    if s.isEmpty then DEFAULT_ORG_KEYWORDS
    else
      let ks := ((pySplit ';' s).map pyStrip).filter (· ≠ [])
      if ks.isEmpty then DEFAULT_ORG_KEYWORDS else ks

/-- The messages main prints to standard output. -/
inductive Msg where
  | xlsxFailAdvisory : Msg
  | xlsxWritten : List Char → Msg
  | processedCount : Nat → Msg
  | csvPath : List Char → Msg
deriving DecidableEq, Repr

/-- The outputs of one run: CSV content, optional XLSX content, messages. -/
structure RunResult where
  csv : List Char
  xlsx : Option (List (List (List Char)))
  msgs : List Msg
deriving Repr

/-- main, after the input file has been read into lines: build the keyword
list, run the pipeline, write the CSV, optionally attempt the XLSX, print
the summary. -/
def mainModel (lines : List (List Char)) (org : Option (List Char))
    (outPath : List Char) (xlsxPath : Option (List Char))
    (openpyxlAvailable : Bool) : RunResult :=
  let kws := orgKeywords org
  let rows := pipelineRows lines kws
  let csv := writeCsv rows
  let (xlsx, xlsxMsgs) :=
    match xlsxPath with
    | none => (none, [])
    | some p =>
      match tryWriteXlsx openpyxlAvailable rows with
      | none => (none, [Msg.xlsxFailAdvisory])
      | some content => (some content, [Msg.xlsxWritten p])
  { csv := csv, xlsx := xlsx
    msgs := xlsxMsgs ++ [Msg.processedCount rows.length, Msg.csvPath outPath] }

def specHintGo : List Char → List Char → List Char
  | [], localPart => localPart
  | sep :: rest, localPart =>
    let parts := (pySplit sep localPart).filter (· ≠ [])
    if 2 ≤ parts.length then parts.getLastD []
    else specHintGo rest localPart

def specSurnameHint (localPart : List Char) : List Char :=
  specHintGo ['.', '-', '_'] localPart

def acceptLine (l : List Char) : Bool :=
  !(l.isEmpty || l.contains ' ' || !l.contains '@') && emailMatch l

def dedupFirst : List (List Char) → List (List Char)
  | [] => []
  | a :: rest => a :: dedupFirst (rest.filter (· ≠ a))
termination_by l => l.length
decreasing_by
  simp only [List.length_cons]
  exact Nat.lt_succ_of_le (List.length_filter_le _ _)

/-- Index of the first occurrence of e in a list (length when absent). -/
def firstIdx (e : List Char) : List (List Char) → Nat
  | [] => 0
  | a :: rest => if a = e then 0 else firstIdx e rest + 1

/-- Every character of a word matched by EMAIL_RE lies in one of the regex
character classes (or is the at-sign). -/
def emailChar (c : Char) : Bool :=
  localChar c || domainChar c || c = '@'

/-- Spec-side keyword rendering: wrapped in double quotes iff it contains a
space. -/
def specKw (kw : List Char) : List Char :=
  if ' ' ∈ kw then ['"'] ++ kw ++ ['"'] else kw

/-- Spec-side OR-join of the rendered keywords. -/
def orJoin : List (List Char) → List Char
  | [] => []
  | [k] => specKw k
  | k :: ks => specKw k ++ " OR ".toList ++ orJoin ks

/-- Spec-side query: the exact string demanded by the specification. -/
def specQuery (surname : List Char) (kws : List (List Char)) : List Char :=
  "site:linkedin.com/in \"".toList ++ surname ++ "\" (".toList ++ orJoin kws ++ [')']

/-- Spec-side keyword-list derivation from the override string. -/
def specOrgKeywords (s : List Char) : List (List Char) :=
  if ((pySplit ';' s).map pyStrip).filter (· ≠ []) = [] then DEFAULT_ORG_KEYWORDS
  else ((pySplit ';' s).map pyStrip).filter (· ≠ [])

/-- The UTF-8 byte stream of a whole string. -/
def utf8Encode (q : List Char) : List Nat :=
  (q.map utf8Bytes).flatten

/-- Characters that never trigger CSV quoting. -/
def plainChar (c : Char) : Bool :=
  !(c = ',' || c = '"' || c = '\n' || c = '\r')

/-- A row none of whose fields contains a CSV-special character. -/
def plainRow (r : Row) : Prop :=
  (∀ c ∈ r.email, plainChar c = true) ∧
  (∀ c ∈ r.surname_hint, plainChar c = true) ∧
  (∀ c ∈ r.google, plainChar c = true) ∧
  (∀ c ∈ r.bing, plainChar c = true) ∧
  (∀ c ∈ r.yandex, plainChar c = true)

theorem pySplit_not_mem {sep : Char} : ∀ {l : List Char}, sep ∉ l → pySplit sep l = [l] := by
  intro l h
  induction l with
  | nil => rfl
  | cons c rest ih =>
    have hc : ¬ c = sep := fun e => h (by simp [e])
    have ht : sep ∉ rest := fun hm => h (List.mem_cons_of_mem c hm)
    simp [pySplit, hc, ih ht]

theorem surnameGo_eq_spec (seps : List Char) (l : List Char) :
    surnameGo seps l = specHintGo seps l := by
  induction seps with
  | nil => rfl
  | cons sep rest ih =>
    by_cases hm : sep ∈ l
    · simp [surnameGo, specHintGo, hm, ih]
    · have hs : pySplit sep l = [l] := pySplit_not_mem hm
      have hlen : (List.filter (fun x => decide (x ≠ [])) [l]).length ≤ 1 := by
        have := List.length_filter_le (fun x => decide (x ≠ [])) [l]
        simpa using this
      simp only [surnameGo, specHintGo, hm, hs, if_false]
      rw [if_neg (by omega)]
      exact ih

/-- C1: extract_surname_hint tries the separators dot, hyphen, underscore in
that order, returns the last non-empty fragment of the first separator whose
split yields at least two fragments, and otherwise the local part unchanged;
with the four concrete examples of the claim. -/
theorem c1_surname_hint :
    (∀ l : List Char, extractSurnameHint l = specSurnameHint l) ∧
    extractSurnameHint "j.smith".toList = "smith".toList ∧
    extractSurnameHint "a_b_c".toList = "c".toList ∧
    extractSurnameHint "single".toList = "single".toList ∧
    extractSurnameHint "john.doe-extra".toList = "doe-extra".toList :=
  ⟨fun l => surnameGo_eq_spec _ l, by decide, by decide, by decide, by decide⟩

/-- C2: the pipeline on the four given lines produces exactly 2 rows, for
john.doe at corp.com then a_b at corp.com, with surname hints doe and b. -/
theorem c2_end_to_end :
    (pipelineRows ["john.doe@corp.com".toList, "john.doe@corp.com".toList,
        "bad email@x".toList, "a_b@corp.com".toList] DEFAULT_ORG_KEYWORDS).length = 2 ∧
    (pipelineRows ["john.doe@corp.com".toList, "john.doe@corp.com".toList,
        "bad email@x".toList, "a_b@corp.com".toList] DEFAULT_ORG_KEYWORDS).map Row.email =
      ["john.doe@corp.com".toList, "a_b@corp.com".toList] ∧
    (pipelineRows ["john.doe@corp.com".toList, "john.doe@corp.com".toList,
        "bad email@x".toList, "a_b@corp.com".toList] DEFAULT_ORG_KEYWORDS).map Row.surname_hint =
      ["doe".toList, "b".toList] := by
  refine ⟨?_, ?_, ?_⟩ <;> decide

theorem acceptLine_iff {l : List Char} :
    acceptLine l = true ↔ l ≠ [] ∧ ' ' ∉ l ∧ '@' ∈ l ∧ emailMatch l = true := by
  simp [acceptLine, List.isEmpty_iff, and_assoc]

theorem mem_dedupFirst {a : List Char} : ∀ {l : List (List Char)}, a ∈ dedupFirst l ↔ a ∈ l := by
  intro l
  induction l using dedupFirst.induct with
  | case1 => simp [dedupFirst]
  | case2 b rest ih =>
    rw [dedupFirst]
    by_cases hab : a = b
    · simp [hab]
    · simp only [List.mem_cons, hab, false_or, ih, List.mem_filter]
      simp [hab]

theorem nodup_dedupFirst : ∀ (l : List (List Char)), (dedupFirst l).Nodup := by
  intro l
  induction l using dedupFirst.induct with
  | case1 => simp [dedupFirst]
  | case2 b rest ih =>
    rw [dedupFirst]
    refine List.Nodup.cons ?_ ih
    intro hmem
    have := mem_dedupFirst.mp hmem
    simp [List.mem_filter] at this

theorem iterEmailsGo_eq : ∀ (lines : List (List Char)) (seen : List (List Char)),
    iterEmailsGo lines seen =
      dedupFirst ((lines.map pyStrip).filter fun l => acceptLine l && !seen.contains l) := by
  intro lines
  induction lines with
  | nil => intro seen; simp [iterEmailsGo, dedupFirst]
  | cons raw rest ih =>
    intro seen
    simp only [List.map_cons, List.filter_cons]
    rw [iterEmailsGo]
    by_cases hg : ((pyStrip raw).isEmpty || (pyStrip raw).contains ' ' || !(pyStrip raw).contains '@') = true
    · have ha : (acceptLine (pyStrip raw) && !seen.contains (pyStrip raw)) = false := by
        simp only [acceptLine, hg, Bool.not_true, Bool.false_and]
      rw [if_pos hg, if_neg (by rw [ha]; simp), ih seen]
    · have hg0 : ((pyStrip raw).isEmpty || (pyStrip raw).contains ' ' || !(pyStrip raw).contains '@') = false := by
        simpa using hg
      have hacc : acceptLine (pyStrip raw) = emailMatch (pyStrip raw) := by
        simp only [acceptLine, hg0, Bool.not_false, Bool.true_and]
      rw [if_neg hg]
      by_cases hm : (emailMatch (pyStrip raw) && !seen.contains (pyStrip raw)) = true
      · have ha : (acceptLine (pyStrip raw) && !seen.contains (pyStrip raw)) = true := by
          rw [hacc]; exact hm
        rw [if_pos hm, if_pos ha, dedupFirst]
        congr 1
        rw [ih (pyStrip raw :: seen), List.filter_filter]
        congr 1
        refine List.filter_congr ?_
        intro x hx2
        by_cases hx : x = pyStrip raw
        · simp [hx]
        · simp [hx, Bool.and_comm]
      · have ha : ¬ ((acceptLine (pyStrip raw) && !seen.contains (pyStrip raw)) = true) := by
          rw [hacc]; exact hm
        rw [if_neg hm, if_neg ha]
        exact ih seen

theorem iterEmails_eq (lines : List (List Char)) :
    iterEmails lines = dedupFirst ((lines.map pyStrip).filter acceptLine) := by
  rw [iterEmails, iterEmailsGo_eq]
  congr 1
  simp

theorem firstIdx_filter_lt {p : List Char → Bool} :
    ∀ (l : List (List Char)) {x y : List Char},
      x ∈ l.filter p → y ∈ l.filter p →
      firstIdx x (l.filter p) < firstIdx y (l.filter p) → firstIdx x l < firstIdx y l := by
  intro l
  induction l with
  | nil => intro x y hx _ _; simp at hx
  | cons c t ih =>
    intro x y hx hy h
    by_cases hp : p c = true
    · rw [List.filter_cons_of_pos hp] at hx hy h
      by_cases hxc : c = x
      · subst hxc
        have hyx : ¬ c = y := by
          intro e
          rw [← e] at h
          simp [firstIdx] at h
        rw [firstIdx, if_pos rfl, firstIdx, if_neg hyx]
        exact Nat.succ_pos _
      · have hyc : ¬ c = y := by
          intro e
          rw [firstIdx, if_neg hxc, firstIdx, if_pos e] at h
          exact Nat.not_lt_zero _ h
        rw [firstIdx, if_neg hxc, firstIdx, if_neg hyc] at h
        have hx2 : x ∈ t.filter p := by
          rcases List.mem_cons.mp hx with e | m
          · exact absurd e.symm hxc
          · exact m
        have hy2 : y ∈ t.filter p := by
          rcases List.mem_cons.mp hy with e | m
          · exact absurd e.symm hyc
          · exact m
        rw [firstIdx, if_neg hxc, firstIdx, if_neg hyc]
        exact Nat.succ_lt_succ (ih hx2 hy2 (Nat.lt_of_succ_lt_succ h))
    · rw [List.filter_cons_of_neg hp] at hx hy h
      have hxc : ¬ c = x := by
        intro e; rw [e] at hp
        exact hp (List.mem_filter.mp hx).2
      have hyc : ¬ c = y := by
        intro e; rw [e] at hp
        exact hp (List.mem_filter.mp hy).2
      rw [firstIdx, if_neg hxc, firstIdx, if_neg hyc]
      exact Nat.succ_lt_succ (ih hx hy h)

theorem dedupFirst_pairwise_firstIdx : ∀ (l : List (List Char)),
    (dedupFirst l).Pairwise (fun a b => firstIdx a l < firstIdx b l) := by
  intro l
  induction l using dedupFirst.induct with
  | case1 => simp [dedupFirst]
  | case2 a rest ih =>
    rw [dedupFirst]
    refine List.Pairwise.cons ?_ ?_
    · intro b hb
      have hbf : b ∈ rest.filter (· ≠ a) := mem_dedupFirst.mp hb
      have hba : ¬ a = b := by
        have := (List.mem_filter.mp hbf).2
        simp at this
        exact fun e => this e.symm
      simp only [firstIdx, if_pos rfl, if_neg hba]
      exact Nat.succ_pos _
    · refine List.Pairwise.imp_of_mem ?_ ih
      intro x y hx hy hr
      have hxf : x ∈ rest.filter (· ≠ a) := mem_dedupFirst.mp hx
      have hyf : y ∈ rest.filter (· ≠ a) := mem_dedupFirst.mp hy
      have hxa : ¬ a = x := by
        have := (List.mem_filter.mp hxf).2
        simp at this
        exact fun e => this e.symm
      have hya : ¬ a = y := by
        have := (List.mem_filter.mp hyf).2
        simp at this
        exact fun e => this e.symm
      rw [firstIdx, if_neg hxa, firstIdx, if_neg hya]
      exact Nat.succ_lt_succ (firstIdx_filter_lt rest hxf hyf hr)

theorem emailMatch_elim {e : List Char} (h : emailMatch e = true) :
    ∃ d, e = e.takeWhile (· != '@') ++ '@' :: d ∧
      e.takeWhile (· != '@') ≠ [] ∧
      (e.takeWhile (· != '@')).all localChar = true ∧
      emailDomainOk d = true := by
  rw [emailMatch] at h
  split at h
  · rename_i d heq
    refine ⟨d, ?_, ?_, ?_, ?_⟩
    · conv_lhs => rw [← List.takeWhile_append_dropWhile (p := (· != '@')) (l := e)]
      rw [heq]
    · simp only [Bool.and_eq_true, Bool.not_eq_true'] at h
      exact fun hnil => by simp [hnil] at h
    · simp only [Bool.and_eq_true] at h
      exact h.1.2
    · simp only [Bool.and_eq_true] at h
      exact h.2
  · exact absurd h (by simp)

theorem emailDomainOk_elim {d : List Char} (h : emailDomainOk d = true) :
    ∃ i t, d = d.take i ++ '.' :: t ∧ i ≠ 0 ∧ (d.take i).all domainChar = true ∧
      t.all Char.isAlpha = true ∧ 2 ≤ t.length := by
  rw [emailDomainOk, List.any_eq_true] at h
  obtain ⟨i, _, hf⟩ := h
  simp only [Bool.and_eq_true, bne_iff_ne, ne_eq] at hf
  obtain ⟨⟨hne, hall⟩, hmatch⟩ := hf
  split at hmatch
  · rename_i t heq
    refine ⟨i, t, ?_, hne, hall, ?_, ?_⟩
    · conv_lhs => rw [← List.take_append_drop i d]
      rw [heq]
    · simp only [Bool.and_eq_true] at hmatch
      exact hmatch.1
    · simp only [Bool.and_eq_true, decide_eq_true_eq] at hmatch
      exact hmatch.2
  · exact absurd hmatch (by simp)

theorem emailMatch_chars {e : List Char} (h : emailMatch e = true) :
    ∀ c ∈ e, emailChar c = true := by
  obtain ⟨d, he, _, hall, hdom⟩ := emailMatch_elim h
  obtain ⟨i, t, hd, _, hdall, htall, _⟩ := emailDomainOk_elim hdom
  intro c hc
  rw [he] at hc
  rcases List.mem_append.mp hc with hc1 | hc2
  · have := List.all_eq_true.mp hall c hc1
    simp [emailChar, this]
  · rcases List.mem_cons.mp hc2 with rfl | hc3
    · simp [emailChar]
    · rw [hd] at hc3
      rcases List.mem_append.mp hc3 with hc4 | hc5
      · have := List.all_eq_true.mp hdall c hc4
        simp [emailChar, this]
      · rcases List.mem_cons.mp hc5 with rfl | hc6
        · simp [emailChar, domainChar]
        · have := List.all_eq_true.mp htall c hc6
          simp [emailChar, domainChar, this]

theorem emailMatch_ne_nil {e : List Char} (h : emailMatch e = true) : e ≠ [] := by
  obtain ⟨d, he, _, _, _⟩ := emailMatch_elim h
  rw [he]
  simp

theorem emailMatch_mem_at {e : List Char} (h : emailMatch e = true) : '@' ∈ e := by
  obtain ⟨d, he, _, _, _⟩ := emailMatch_elim h
  rw [he]
  simp

theorem emailMatch_no_space {e : List Char} (h : emailMatch e = true) : ' ' ∉ e :=
  fun hs => absurd (emailMatch_chars h ' ' hs) (by decide)

theorem getLastD_mem : ∀ (l : List (List Char)) (d : List Char), l ≠ [] → l.getLastD d ∈ l := by
  intro l
  induction l with
  | nil => intro d h; exact absurd rfl h
  | cons a t ih =>
    intro d _
    rw [List.getLastD_cons]
    cases ht : t with
    | nil => simp [ht, List.getLastD]
    | cons b t2 =>
      rw [← ht]
      have hne : t ≠ [] := by rw [ht]; simp
      exact List.mem_cons_of_mem _ (ih a hne)

theorem surnameGo_ne_nil : ∀ (seps : List Char) (l : List Char), l ≠ [] → surnameGo seps l ≠ [] := by
  intro seps
  induction seps with
  | nil => intro l h; exact h
  | cons sep rest ih =>
    intro l h
    rw [surnameGo]
    by_cases hm : sep ∈ l
    · rw [if_pos hm]
      by_cases hlen : 2 ≤ ((pySplit sep l).filter (· ≠ [])).length
      · rw [if_pos hlen]
        have hne : (pySplit sep l).filter (· ≠ []) ≠ [] := by
          intro e; rw [e] at hlen; simp at hlen
        have hmem := getLastD_mem _ [] hne
        have := (List.mem_filter.mp hmem).2
        simpa using this
      · rw [if_neg hlen]; exact ih l h
    · rw [if_neg hm]; exact ih l h

theorem count_eq_one {l : List (List Char)} {e : List Char}
    (hn : l.Nodup) (he : e ∈ l) : l.count e = 1 := by
  induction l with
  | nil => simp at he
  | cons a t ih =>
    rcases List.mem_cons.mp he with rfl | hm
    · rw [List.count_cons_self]
      have h0 : t.count e = 0 := List.count_eq_zero.mpr (List.nodup_cons.mp hn).1
      rw [h0]
    · have hne : e ≠ a := by rintro rfl; exact (List.nodup_cons.mp hn).1 hm
      rw [List.count_cons_of_ne hne]
      exact ih (List.nodup_cons.mp hn).2 hm

/-- C4: a line is yielded by the filter (as its trimmed form) iff the trimmed
line is non-empty, has no space, contains an at-sign, matches the email shape
and was not yielded before (first occurrences only, captured by dedupFirst). -/
theorem c4_filter_yields_iff (lines : List (List Char)) :
    iterEmails lines = dedupFirst ((lines.map pyStrip).filter acceptLine) ∧
    ∀ l : List Char, l ∈ iterEmails lines ↔
      l ∈ lines.map pyStrip ∧ l ≠ [] ∧ ' ' ∉ l ∧ '@' ∈ l ∧ emailMatch l = true := by
  refine ⟨iterEmails_eq lines, ?_⟩
  intro l
  rw [iterEmails_eq, mem_dedupFirst, List.mem_filter, acceptLine_iff]

/-- C5: a valid-shaped email occurring among the trimmed lines is yielded
exactly once, and yields are ordered by first occurrence in the input. -/
theorem c5_dedup_idempotent_order (lines : List (List Char)) (e : List Char) :
    (emailMatch e = true → e ∈ lines.map pyStrip → (iterEmails lines).count e = 1) ∧
    (iterEmails lines).Pairwise
      (fun a b => firstIdx a (lines.map pyStrip) < firstIdx b (lines.map pyStrip)) := by
  constructor
  · intro hv hocc
    have hacc : acceptLine e = true := acceptLine_iff.mpr
      ⟨emailMatch_ne_nil hv, emailMatch_no_space hv, emailMatch_mem_at hv, hv⟩
    have hmem : e ∈ iterEmails lines := by
      rw [iterEmails_eq, mem_dedupFirst, List.mem_filter]
      exact ⟨hocc, hacc⟩
    have hnd : (iterEmails lines).Nodup := by
      rw [iterEmails_eq]; exact nodup_dedupFirst _
    exact count_eq_one hnd hmem
  · rw [iterEmails_eq]
    refine List.Pairwise.imp_of_mem ?_ (dedupFirst_pairwise_firstIdx _)
    intro x y hx hy hr
    exact firstIdx_filter_lt _ (mem_dedupFirst.mp hx) (mem_dedupFirst.mp hy) hr

theorem c5_witness :
    (iterEmails ["a@bc.de".toList, "x y".toList, "a@bc.de".toList, "b@cd.ef".toList]).count
        "a@bc.de".toList = 1 ∧
    (iterEmails ["a@bc.de".toList, "x y".toList, "a@bc.de".toList, "b@cd.ef".toList]).Pairwise
      (fun a b =>
        firstIdx a (["a@bc.de".toList, "x y".toList, "a@bc.de".toList, "b@cd.ef".toList].map pyStrip) <
        firstIdx b (["a@bc.de".toList, "x y".toList, "a@bc.de".toList, "b@cd.ef".toList].map pyStrip)) := by
  have h := c5_dedup_idempotent_order
    ["a@bc.de".toList, "x y".toList, "a@bc.de".toList, "b@cd.ef".toList] "a@bc.de".toList
  exact ⟨h.1 (by decide) (by decide), h.2⟩

/-- C10: every yielded string contains an at-sign, and the surname hint of
its part before the first at-sign is non-empty. -/
theorem c10_yield_safety (lines : List (List Char)) (e : List Char)
    (h : e ∈ iterEmails lines) :
    '@' ∈ e ∧ extractSurnameHint (e.takeWhile (· != '@')) ≠ [] := by
  have hacc : acceptLine e = true := by
    rw [iterEmails_eq, mem_dedupFirst, List.mem_filter] at h
    exact h.2
  have hv : emailMatch e = true := (acceptLine_iff.mp hacc).2.2.2
  obtain ⟨d, _, htw, _, _⟩ := emailMatch_elim hv
  exact ⟨emailMatch_mem_at hv, surnameGo_ne_nil _ _ htw⟩

theorem c10_witness :
    "a@bc.de".toList ∈ iterEmails ["a@bc.de".toList] ∧
    '@' ∈ "a@bc.de".toList ∧
    extractSurnameHint ("a@bc.de".toList.takeWhile (· != '@')) ≠ [] :=
  ⟨by decide, c10_yield_safety ["a@bc.de".toList] "a@bc.de".toList (by decide)⟩

theorem quoteKw_eq_specKw (kw : List Char) : quoteKw kw = specKw kw := by
  rw [quoteKw, specKw]
  by_cases h : ' ' ∈ kw
  · rw [if_pos h, if_pos h]
    simp
  · rw [if_neg h, if_neg h]

theorem intercalate_eq_orJoin : ∀ (kws : List (List Char)), kws ≠ [] →
    List.intercalate " OR ".toList (kws.map quoteKw) = orJoin kws := by
  intro kws
  induction kws with
  | nil => intro h; exact absurd rfl h
  | cons k ks ih =>
    intro _
    cases ks with
    | nil => simp [List.intercalate, List.intersperse, orJoin, quoteKw_eq_specKw]
    | cons k2 ks2 =>
      have step : List.intercalate " OR ".toList ((k :: k2 :: ks2).map quoteKw) =
          quoteKw k ++ " OR ".toList ++ List.intercalate " OR ".toList ((k2 :: ks2).map quoteKw) := by
        simp [List.intercalate, List.intersperse]
      rw [step, ih (by simp), quoteKw_eq_specKw]
      rfl

/-- C6: for a non-empty keyword list the query is exactly
site:linkedin.com/in "surname" (kw1 OR ... OR kwN), surname always quoted,
keywords quoted iff they contain a space. -/
theorem c6_query_shape (s : List Char) (kws : List (List Char)) (h : kws ≠ []) :
    buildQuery s kws = specQuery s kws := by
  rw [buildQuery, specQuery, intercalate_eq_orJoin kws h]

theorem c6_witness :
    DEFAULT_ORG_KEYWORDS ≠ [] ∧
    buildQuery "doe".toList DEFAULT_ORG_KEYWORDS = specQuery "doe".toList DEFAULT_ORG_KEYWORDS :=
  ⟨by decide, c6_query_shape "doe".toList DEFAULT_ORG_KEYWORDS (by decide)⟩

/-- C8: the pipeline keyword list is the override split on semicolons,
trimmed, empties dropped, with the 3-element default list used when nothing
remains or no override is given. -/
theorem c8_org_keywords (s : List Char) :
    orgKeywords (some s) = specOrgKeywords s ∧
    orgKeywords none = DEFAULT_ORG_KEYWORDS ∧
    DEFAULT_ORG_KEYWORDS.length = 3 := by
  refine ⟨?_, rfl, rfl⟩
  rw [orgKeywords, specOrgKeywords]
  by_cases hs : s = []
  · rw [hs]
    simp [pySplit, pyStrip]
  · rw [if_neg (by simpa using hs)]
    by_cases hk : ((pySplit ';' s).map pyStrip).filter (· ≠ []) = []
    · rw [if_pos (by simpa using hk), if_pos hk]
    · rw [if_neg (by simpa using hk), if_neg hk]

theorem char_toNat_valid (c : Char) :
    c.toNat < 0xd800 ∨ (0xdfff < c.toNat ∧ c.toNat < 0x110000) := c.valid

theorem safeChar_lt128 {c : Char} (h : safeChar c = true) : c.toNat < 128 := by
  have ht : c.toNat = c.val.toNat := rfl
  rw [safeChar] at h
  simp only [Bool.or_eq_true, decide_eq_true_eq] at h
  rcases h with ((((ha | hd) | he) | he) | he) | he
  · rw [Char.isAlpha] at ha
    simp only [Bool.or_eq_true] at ha
    rcases ha with hu | hl
    · rw [Char.isUpper] at hu
      simp only [Bool.and_eq_true, decide_eq_true_eq] at hu
      have := UInt32.toNat_le_of_le (m := 90) (by decide) hu.2
      omega
    · rw [Char.isLower] at hl
      simp only [Bool.and_eq_true, decide_eq_true_eq] at hl
      have := UInt32.toNat_le_of_le (m := 122) (by decide) hl.2
      omega
  · rw [Char.isDigit] at hd
    simp only [Bool.and_eq_true, decide_eq_true_eq] at hd
    have := UInt32.toNat_le_of_le (m := 57) (by decide) hd.2
    omega
  all_goals rw [he]; decide

theorem safeChar_ne_pct {c : Char} (h : safeChar c = true) : ¬ c = '%' :=
  fun e => absurd (e ▸ h) (by decide)

theorem safeChar_ne_plus {c : Char} (h : safeChar c = true) : ¬ c = '+' :=
  fun e => absurd (e ▸ h) (by decide)

theorem utf8Bytes_lt_256 (c : Char) : ∀ b ∈ utf8Bytes c, b < 256 := by
  have hv := char_toNat_valid c
  rw [utf8Bytes]
  intro b hb
  by_cases h1 : c.toNat < 0x80
  · rw [if_pos h1] at hb
    simp only [List.mem_singleton] at hb
    omega
  · rw [if_neg h1] at hb
    by_cases h2 : c.toNat < 0x800
    · rw [if_pos h2] at hb
      simp only [List.mem_cons, List.not_mem_nil, or_false] at hb
      rcases hb with rfl | rfl <;> omega
    · rw [if_neg h2] at hb
      by_cases h3 : c.toNat < 0x10000
      · rw [if_pos h3] at hb
        simp only [List.mem_cons, List.not_mem_nil, or_false] at hb
        rcases hb with rfl | rfl | rfl <;> omega
      · rw [if_neg h3] at hb
        simp only [List.mem_cons, List.not_mem_nil, or_false] at hb
        rcases hb with rfl | rfl | rfl | rfl <;> omega

theorem hexVal_hexDigit : ∀ n < 16, hexVal (hexDigit n) = some n := by decide

theorem pctBytes_pctByte {b : Nat} (hb : b < 256) (s : List Char) :
    pctBytes (pctByte b ++ s) = (pctBytes s).map (b :: ·) := by
  have h1 : hexVal (hexDigit (b / 16)) = some (b / 16) := hexVal_hexDigit _ (by omega)
  have h2 : hexVal (hexDigit (b % 16)) = some (b % 16) := hexVal_hexDigit _ (by omega)
  show pctBytes ('%' :: hexDigit (b / 16) :: hexDigit (b % 16) :: s) = _
  rw [pctBytes, if_pos rfl, h1, h2]
  cases hps : pctBytes s
  · rfl
  · show some ((16 * (b / 16) + b % 16) :: _) = _
    rw [show 16 * (b / 16) + b % 16 = b from by omega]
    rfl

theorem pctBytes_flatten {bs : List Nat} (hb : ∀ b ∈ bs, b < 256) (s : List Char) :
    pctBytes ((bs.map pctByte).flatten ++ s) = (pctBytes s).map (bs ++ ·) := by
  induction bs with
  | nil =>
    simp only [List.map_nil, List.flatten_nil, List.nil_append]
    cases pctBytes s <;> rfl
  | cons b bs2 ih =>
    simp only [List.map_cons, List.flatten_cons, List.append_assoc]
    rw [pctBytes_pctByte (hb b (by simp)) _]
    rw [ih (fun x hx => hb x (List.mem_cons_of_mem b hx))]
    cases pctBytes s <;> rfl

theorem pctBytes_cons_ne_pct {c : Char} (h1 : ¬ c = '%') (s : List Char) :
    pctBytes (c :: s) =
      if c = '+' then (pctBytes s).map (32 :: ·)
      else if c.toNat < 128 then (pctBytes s).map (c.toNat :: ·) else none := by
  match s with
  | [] => rw [pctBytes.eq_3 c [] (by intro h l r he; simp at he), if_neg h1]
  | [a] => rw [pctBytes.eq_3 c [a] (by intro h l r he; simp at he), if_neg h1]
  | a :: b :: t => rw [pctBytes.eq_2, if_neg h1]

theorem pctBytes_quotePlusChar (c : Char) (s : List Char) :
    pctBytes (quotePlusChar c ++ s) = (pctBytes s).map (utf8Bytes c ++ ·) := by
  rw [quotePlusChar]
  by_cases hsp : c = ' '
  · rw [if_pos hsp, hsp]
    show pctBytes ('+' :: s) = _
    rw [pctBytes_cons_ne_pct (by decide), if_pos rfl]
    rw [show utf8Bytes ' ' = [32] from rfl]
    cases pctBytes s <;> rfl
  · rw [if_neg hsp]
    by_cases hsf : safeChar c = true
    · rw [if_pos hsf]
      have hb : c.toNat < 128 := safeChar_lt128 hsf
      show pctBytes (c :: s) = _
      rw [pctBytes_cons_ne_pct (safeChar_ne_pct hsf), if_neg (safeChar_ne_plus hsf),
        if_pos hb]
      rw [show utf8Bytes c = [c.toNat] from by rw [utf8Bytes]; rw [if_pos (by omega)]]
      cases pctBytes s <;> rfl
    · rw [if_neg hsf]
      exact pctBytes_flatten (utf8Bytes_lt_256 c) s

theorem pctBytes_quotePlus (q : List Char) :
    pctBytes (quotePlus q) = some (utf8Encode q) := by
  induction q with
  | nil => rfl
  | cons c q2 ih =>
    have hq : quotePlus (c :: q2) = quotePlusChar c ++ quotePlus q2 := by
      simp [quotePlus]
    rw [hq, pctBytes_quotePlusChar, ih]
    rfl

theorem utf8Step_encode (c : Char) (bs : List Nat) :
    utf8Step (utf8Bytes c ++ bs) = some (c, bs) := by
  have hv := char_toNat_valid c
  rw [utf8Bytes]
  by_cases h1 : c.toNat < 0x80
  · rw [if_pos h1]
    show utf8Step (c.toNat :: bs) = _
    rw [utf8Step, if_pos h1, Char.ofNat_toNat]
  · rw [if_neg h1]
    by_cases h2 : c.toNat < 0x800
    · rw [if_pos h2]
      show utf8Step ((0xC0 + c.toNat / 0x40) :: (0x80 + c.toNat % 0x40) :: bs) = _
      rw [utf8Step]
      simp only [List.headD_cons, List.length_cons, List.drop_succ_cons, List.drop_zero]
      have ha1 : ¬ 0xC0 + c.toNat / 0x40 < 0x80 := by omega
      have ha2 : ¬ 0xC0 + c.toNat / 0x40 < 0xC0 := by omega
      have ha3 : 0xC0 + c.toNat / 0x40 < 0xE0 := by omega
      rw [if_neg ha1, if_neg ha2, if_pos ha3, if_pos (by omega)]
      rw [show (0xC0 + c.toNat / 0x40 - 0xC0) * 0x40 + (0x80 + c.toNat % 0x40 - 0x80) =
        c.toNat from by omega, Char.ofNat_toNat]
    · rw [if_neg h2]
      by_cases h3 : c.toNat < 0x10000
      · rw [if_pos h3]
        show utf8Step ((0xE0 + c.toNat / 0x1000) :: (0x80 + c.toNat / 0x40 % 0x40) ::
          (0x80 + c.toNat % 0x40) :: bs) = _
        rw [utf8Step]
        simp only [List.headD_cons, List.length_cons, List.drop_succ_cons, List.drop_zero]
        have hb1 : ¬ 0xE0 + c.toNat / 0x1000 < 0x80 := by omega
        have hb2 : ¬ 0xE0 + c.toNat / 0x1000 < 0xC0 := by omega
        have hb3 : ¬ 0xE0 + c.toNat / 0x1000 < 0xE0 := by omega
        have hb4 : 0xE0 + c.toNat / 0x1000 < 0xF0 := by omega
        rw [if_neg hb1, if_neg hb2, if_neg hb3, if_pos hb4, if_pos (by omega)]
        rw [show (0xE0 + c.toNat / 0x1000 - 0xE0) * 0x1000 +
          (0x80 + c.toNat / 0x40 % 0x40 - 0x80) * 0x40 + (0x80 + c.toNat % 0x40 - 0x80) =
          c.toNat from by omega, Char.ofNat_toNat]
      · rw [if_neg h3]
        show utf8Step ((0xF0 + c.toNat / 0x40000) :: (0x80 + c.toNat / 0x1000 % 0x40) ::
          (0x80 + c.toNat / 0x40 % 0x40) :: (0x80 + c.toNat % 0x40) :: bs) = _
        rw [utf8Step]
        simp only [List.headD_cons, List.length_cons, List.drop_succ_cons, List.drop_zero]
        have hc1 : ¬ 0xF0 + c.toNat / 0x40000 < 0x80 := by omega
        have hc2 : ¬ 0xF0 + c.toNat / 0x40000 < 0xC0 := by omega
        have hc3 : ¬ 0xF0 + c.toNat / 0x40000 < 0xE0 := by omega
        have hc4 : ¬ 0xF0 + c.toNat / 0x40000 < 0xF0 := by omega
        have hc5 : 0xF0 + c.toNat / 0x40000 < 0xF8 := by omega
        rw [if_neg hc1, if_neg hc2, if_neg hc3, if_neg hc4, if_pos hc5, if_pos (by omega)]
        rw [show (0xF0 + c.toNat / 0x40000 - 0xF0) * 0x40000 +
          (0x80 + c.toNat / 0x1000 % 0x40 - 0x80) * 0x1000 +
          (0x80 + c.toNat / 0x40 % 0x40 - 0x80) * 0x40 + (0x80 + c.toNat % 0x40 - 0x80) =
          c.toNat from by omega, Char.ofNat_toNat]

theorem utf8Bytes_ne_nil (c : Char) : utf8Bytes c ≠ [] := by
  rw [utf8Bytes]
  by_cases h1 : c.toNat < 0x80
  · rw [if_pos h1]; simp
  · rw [if_neg h1]
    by_cases h2 : c.toNat < 0x800
    · rw [if_pos h2]; simp
    · rw [if_neg h2]
      by_cases h3 : c.toNat < 0x10000
      · rw [if_pos h3]; simp
      · rw [if_neg h3]; simp

theorem utf8Decode_append (c : Char) (bs : List Nat) :
    utf8Decode (utf8Bytes c ++ bs) = (utf8Decode bs).map (c :: ·) := by
  have hstep := utf8Step_encode c bs
  obtain ⟨b, rest, he⟩ : ∃ b rest, utf8Bytes c ++ bs = b :: rest := by
    cases hl : utf8Bytes c ++ bs with
    | nil =>
      exact absurd (List.append_eq_nil.mp hl).1 (utf8Bytes_ne_nil c)
    | cons b rest => exact ⟨b, rest, rfl⟩
  rw [he] at hstep ⊢
  rw [utf8Decode]
  split
  · rename_i c2 r2 hstep2
    rw [hstep] at hstep2
    simp only [Option.some.injEq, Prod.mk.injEq] at hstep2
    rw [hstep2.1, hstep2.2]
  · rename_i hstep2
    rw [hstep] at hstep2
    exact Option.noConfusion hstep2

theorem utf8Decode_encode (q : List Char) : utf8Decode (utf8Encode q) = some q := by
  induction q with
  | nil =>
    rw [show utf8Encode [] = [] from rfl]
    rw [utf8Decode]
  | cons c q2 ih =>
    have : utf8Encode (c :: q2) = utf8Bytes c ++ utf8Encode q2 := by
      simp [utf8Encode]
    rw [this, utf8Decode_append, ih]
    rfl

theorem unquotePlus_quotePlus (q : List Char) : unquotePlus (quotePlus q) = some q := by
  rw [unquotePlus, pctBytes_quotePlus]
  show utf8Decode (utf8Encode q) = some q
  exact utf8Decode_encode q

/-- C7: the three engine URLs are the fixed endpoints with the quote-plus
encoding of the query appended as the engine's query parameter, and decoding
that parameter recovers the query exactly. -/
theorem c7_links_roundtrip (q : List Char) :
    buildSearchLinks q =
      { google := googleBase ++ quotePlus q, bing := bingBase ++ quotePlus q,
        yandex := yandexBase ++ quotePlus q } ∧
    unquotePlus ((buildSearchLinks q).google.drop googleBase.length) = some q ∧
    unquotePlus ((buildSearchLinks q).bing.drop bingBase.length) = some q ∧
    unquotePlus ((buildSearchLinks q).yandex.drop yandexBase.length) = some q := by
  refine ⟨rfl, ?_, ?_, ?_⟩ <;>
    · rw [buildSearchLinks]
      rw [List.drop_left]
      exact unquotePlus_quotePlus q

theorem csvField_plain {f : List Char} (h : ∀ c ∈ f, plainChar c = true) :
    csvField f = f := by
  rw [csvField, if_neg]
  intro hbad
  rcases hbad with hb | hb | hb | hb <;>
    · have := h _ hb
      exact absurd this (by decide)

theorem count_nl_zero {f : List Char} (h : ∀ c ∈ f, plainChar c = true) :
    f.count '\n' = 0 := by
  rw [List.count_eq_zero]
  intro hmem
  exact absurd (h _ hmem) (by decide)

theorem safeChar_plain {c : Char} (h : safeChar c = true) : plainChar c = true := by
  have h1 : ¬ c = ',' := fun e => absurd (e ▸ h) (by decide)
  have h2 : ¬ c = '"' := fun e => absurd (e ▸ h) (by decide)
  have h3 : ¬ c = '\n' := fun e => absurd (e ▸ h) (by decide)
  have h4 : ¬ c = '\r' := fun e => absurd (e ▸ h) (by decide)
  simp [plainChar, h1, h2, h3, h4]

theorem hexDigit_plain : ∀ n < 16, plainChar (hexDigit n) = true := by decide

theorem quotePlus_plain (q : List Char) : ∀ c ∈ quotePlus q, plainChar c = true := by
  intro c hc
  rw [quotePlus] at hc
  rw [List.mem_flatten] at hc
  obtain ⟨part, hpart, hcpart⟩ := hc
  rw [List.mem_map] at hpart
  obtain ⟨c0, _, hc0⟩ := hpart
  rw [quotePlusChar] at hc0
  by_cases hsp : c0 = ' '
  · rw [if_pos hsp] at hc0
    rw [← hc0] at hcpart
    simp only [List.mem_singleton] at hcpart
    rw [hcpart]
    decide
  · rw [if_neg hsp] at hc0
    by_cases hsf : safeChar c0 = true
    · rw [if_pos hsf] at hc0
      rw [← hc0] at hcpart
      simp only [List.mem_singleton] at hcpart
      rw [hcpart]
      exact safeChar_plain hsf
    · rw [if_neg hsf] at hc0
      rw [← hc0] at hcpart
      rw [List.mem_flatten] at hcpart
      obtain ⟨pb, hpb, hcpb⟩ := hcpart
      rw [List.mem_map] at hpb
      obtain ⟨b, hb, hbeq⟩ := hpb
      have hb256 : b < 256 := utf8Bytes_lt_256 c0 b hb
      rw [← hbeq, pctByte] at hcpb
      simp only [List.mem_cons, List.not_mem_nil, or_false] at hcpb
      rcases hcpb with rfl | rfl | rfl
      · decide
      · exact hexDigit_plain _ (by omega)
      · exact hexDigit_plain _ (by omega)

theorem emailChar_plain {c : Char} (h : emailChar c = true) : plainChar c = true := by
  have h1 : ¬ c = ',' := fun e => absurd (e ▸ h) (by decide)
  have h2 : ¬ c = '"' := fun e => absurd (e ▸ h) (by decide)
  have h3 : ¬ c = '\n' := fun e => absurd (e ▸ h) (by decide)
  have h4 : ¬ c = '\r' := fun e => absurd (e ▸ h) (by decide)
  simp [plainChar, h1, h2, h3, h4]

theorem pySplit_subset {sep : Char} :
    ∀ (l : List Char), ∀ part ∈ pySplit sep l, ∀ c ∈ part, c ∈ l := by
  intro l
  induction l with
  | nil =>
    intro part hpart c hc
    simp [pySplit] at hpart
    rw [hpart] at hc
    simp at hc
  | cons a t ih =>
    intro part hpart c hc
    rw [pySplit] at hpart
    by_cases ha : a = sep
    · rw [if_pos ha] at hpart
      rcases List.mem_cons.mp hpart with rfl | hmem
      · simp at hc
      · exact List.mem_cons_of_mem a (ih part hmem c hc)
    · rw [if_neg ha] at hpart
      cases hsub : pySplit sep t with
      | nil =>
        rw [hsub] at hpart
        simp only [List.mem_singleton] at hpart
        rw [hpart] at hc
        simp only [List.mem_singleton] at hc
        rw [hc]
        simp
      | cons r rs =>
        rw [hsub] at hpart
        rcases List.mem_cons.mp hpart with rfl | hmem
        · rcases List.mem_cons.mp hc with rfl | hcr
          · simp
          · have := ih r (by rw [hsub]; simp) c hcr
            exact List.mem_cons_of_mem a this
        · have := ih part (by rw [hsub]; exact List.mem_cons_of_mem r hmem) c hc
          exact List.mem_cons_of_mem a this

theorem surnameGo_subset :
    ∀ (seps : List Char) (l : List Char), ∀ c ∈ surnameGo seps l, c ∈ l := by
  intro seps
  induction seps with
  | nil => intro l c hc; exact hc
  | cons sep rest ih =>
    intro l c hc
    rw [surnameGo] at hc
    by_cases hm : sep ∈ l
    · rw [if_pos hm] at hc
      by_cases hlen : 2 ≤ ((pySplit sep l).filter (· ≠ [])).length
      · rw [if_pos hlen] at hc
        have hne : (pySplit sep l).filter (· ≠ []) ≠ [] := by
          intro e; rw [e] at hlen; simp at hlen
        have hmem := getLastD_mem _ [] hne
        have hin : ((pySplit sep l).filter (· ≠ [])).getLastD [] ∈ pySplit sep l :=
          (List.mem_filter.mp hmem).1
        exact pySplit_subset l _ hin c hc
      · rw [if_neg hlen] at hc
        exact ih l c hc
    · rw [if_neg hm] at hc
      exact ih l c hc

theorem mkRow_plain (kws : List (List Char)) (e : List Char) (hv : emailMatch e = true) :
    (∀ c ∈ (mkRow kws e).email, plainChar c = true) ∧
    (∀ c ∈ (mkRow kws e).surname_hint, plainChar c = true) ∧
    (∀ c ∈ (mkRow kws e).google, plainChar c = true) ∧
    (∀ c ∈ (mkRow kws e).bing, plainChar c = true) ∧
    (∀ c ∈ (mkRow kws e).yandex, plainChar c = true) := by
  have hemail : ∀ c ∈ e, plainChar c = true :=
    fun c hc => emailChar_plain (emailMatch_chars hv c hc)
  have hsurname : ∀ c ∈ extractSurnameHint (e.takeWhile (· != '@')), plainChar c = true := by
    intro c hc
    have h1 := surnameGo_subset _ _ c hc
    exact hemail c (List.takeWhile_subset _ h1)
  have hlink : ∀ (base : List Char), (∀ c ∈ base, plainChar c = true) →
      ∀ q : List Char, ∀ c ∈ base ++ quotePlus q, plainChar c = true := by
    intro base hbase q c hc
    rcases List.mem_append.mp hc with h1 | h2
    · exact hbase c h1
    · exact quotePlus_plain q c h2
  refine ⟨hemail, hsurname, ?_, ?_, ?_⟩
  · exact hlink googleBase (by decide) _
  · exact hlink bingBase (by decide) _
  · exact hlink yandexBase (by decide) _

theorem csvLine_count {r : Row}
    (h : (∀ c ∈ r.email, plainChar c = true) ∧
      (∀ c ∈ r.surname_hint, plainChar c = true) ∧
      (∀ c ∈ r.google, plainChar c = true) ∧
      (∀ c ∈ r.bing, plainChar c = true) ∧
      (∀ c ∈ r.yandex, plainChar c = true)) :
    (csvLine r).count '\n' = 1 := by
  obtain ⟨h1, h2, h3, h4, h5⟩ := h
  rw [csvLine, csvField_plain h1, csvField_plain h2, csvField_plain h3,
    csvField_plain h4, csvField_plain h5]
  have hstep : List.intercalate [','] [r.email, r.surname_hint, r.google, r.bing, r.yandex] =
      r.email ++ [','] ++ (r.surname_hint ++ [','] ++ (r.google ++ [','] ++
        (r.bing ++ [','] ++ r.yandex))) := by
    simp [List.intercalate, List.intersperse]
  rw [hstep]
  simp only [List.count_append]
  rw [count_nl_zero h1, count_nl_zero h2, count_nl_zero h3, count_nl_zero h4,
    count_nl_zero h5]
  decide

theorem blankRow_plain : plainRow blankRow := by
  refine ⟨?_, ?_, ?_, ?_, ?_⟩ <;> intro c hc <;> simp [blankRow] at hc

theorem flatten_csvLine_count : ∀ (rows : List Row), (∀ r ∈ rows, plainRow r) →
    ((rows.map csvLine).flatten).count '\n' = rows.length := by
  intro rows
  induction rows with
  | nil => intro _; rfl
  | cons r rest ih =>
    intro h
    simp only [List.map_cons, List.flatten_cons, List.count_append, List.length_cons]
    rw [csvLine_count (h r (by simp)), ih (fun r2 hr2 => h r2 (List.mem_cons_of_mem r hr2))]
    omega

theorem writeCsv_count {rows : List Row} (h : ∀ r ∈ rows, plainRow r) :
    (writeCsv rows).count '\n' = (if rows.isEmpty then 1 else rows.length) + 1 := by
  rw [writeCsv]
  by_cases he : rows.isEmpty
  · rw [if_pos he, if_pos he]
    show (csvHeader ++ ([blankRow].map csvLine).flatten).count '\n' = 1 + 1
    rw [List.count_append,
      flatten_csvLine_count [blankRow] (by intro r hr; simp at hr; rw [hr]; exact blankRow_plain)]
    rfl
  · rw [if_neg he, if_neg he]
    show (csvHeader ++ (rows.map csvLine).flatten).count '\n' = rows.length + 1
    rw [List.count_append, flatten_csvLine_count rows h]
    have : csvHeader.count '\n' = 1 := by decide
    rw [this]
    omega

/-- C3 counterexample: for the empty email list the writer emits one blank
placeholder data row, so the data-row count is 1, not 0. -/
theorem c3_counterexample :
    dataRowCount (writeCsv (([] : List (List Char)).map (mkRow DEFAULT_ORG_KEYWORDS))) ≠
      (([] : List (List Char)).map (mkRow DEFAULT_ORG_KEYWORDS)).length := by decide

/-- C3 amended: the CSV always starts with the header record; for a
non-empty list of accepted valid emails the data-row count equals the number
of emails, and for the empty list it is exactly one (the blank placeholder
row). -/
theorem c3_header_and_rowcount (kws : List (List Char)) (emails : List (List Char))
    (hv : ∀ e ∈ emails, emailMatch e = true) :
    (∃ rest, writeCsv (emails.map (mkRow kws)) = csvHeader ++ rest) ∧
    dataRowCount (writeCsv (emails.map (mkRow kws))) =
      if emails.isEmpty then 1 else emails.length := by
  have hplain : ∀ r ∈ emails.map (mkRow kws), plainRow r := by
    intro r hr
    rw [List.mem_map] at hr
    obtain ⟨e, he, rfl⟩ := hr
    exact mkRow_plain kws e (hv e he)
  constructor
  · exact ⟨_, rfl⟩
  · rw [dataRowCount, writeCsv_count hplain]
    cases emails with
    | nil => rfl
    | cons e rest => simp

theorem c3_witness :
    (∃ rest, writeCsv ([("a@bc.de".toList : List Char)].map (mkRow DEFAULT_ORG_KEYWORDS)) =
      csvHeader ++ rest) ∧
    dataRowCount (writeCsv ([("a@bc.de".toList : List Char)].map (mkRow DEFAULT_ORG_KEYWORDS))) =
      if ([("a@bc.de".toList : List Char)] : List (List Char)).isEmpty then 1
      else [("a@bc.de".toList : List Char)].length :=
  c3_header_and_rowcount DEFAULT_ORG_KEYWORDS ["a@bc.de".toList] (by decide)

/-- C9: with spreadsheet output requested and openpyxl unavailable, the XLSX
attempt reports failure (no exception escapes), the run completes with its
full summary, exactly one advisory message is printed, and the CSV content
is the untouched write_csv output. -/
theorem c9_xlsx_missing_recovery (lines : List (List Char)) (org : Option (List Char))
    (outP p : List Char) :
    tryWriteXlsx false (pipelineRows lines (orgKeywords org)) = none ∧
    (mainModel lines org outP (some p) false).xlsx = none ∧
    (mainModel lines org outP (some p) false).msgs.count Msg.xlsxFailAdvisory = 1 ∧
    (mainModel lines org outP (some p) false).csv =
      writeCsv (pipelineRows lines (orgKeywords org)) ∧
    (mainModel lines org outP (some p) false).msgs =
      [Msg.xlsxFailAdvisory,
        Msg.processedCount (pipelineRows lines (orgKeywords org)).length,
        Msg.csvPath outP] :=
  ⟨rfl, rfl, rfl, rfl, rfl⟩

end LinkedinFinder
